import Mathlib

/-!
Verification development for an algorithmic-trading backtest framework.

The embedding below translates the Python sources into Lean:
- SimpleBacktester and run_sma_crossover_backtest from examples/simple_backtest.py
  (ledger state, execute_trade, analytics: win rate and max drawdown);
- BaseStrategy from strategies/base_strategy.py (buy, sell,
  calculate_position_size, get_metrics, the Trade dataclass);
- MeanReversionStrategy from strategies/mean_reversion.py (RSI, on_data,
  _record_trade).

Real numbers are modelled by the rationals; Python float division by zero
never occurs on the executed paths that the theorems cover (the one RSI
division is guarded by the avg_loss = 0 test in the source).
-/

namespace Backtest

/-- Trade record appended by SimpleBacktester.execute_trade: a BUY dict carries
a cost field, a SELL dict carries a proceeds field; neither carries the other
key. The timestamp field of the Python dict is kept as a natural number. -/
inductive TradeRec where
  | buyRec (timestamp : Nat) (price shares cost : ℚ)
  | sellRec (timestamp : Nat) (price shares proceeds : ℚ)
  deriving DecidableEq, Repr

/-- Value of the dict key type: the string BUY or SELL. -/
def TradeRec.ttype : TradeRec → String
  | .buyRec _ _ _ _ => "BUY"
  | .sellRec _ _ _ _ => "SELL"

/-- Python t.get with key cost: present only on BUY records. -/
def TradeRec.costField : TradeRec → Option ℚ
  | .buyRec _ _ _ c => some c
  | .sellRec _ _ _ _ => none

/-- Python t.get with key proceeds: present only on SELL records. -/
def TradeRec.proceedsField : TradeRec → Option ℚ
  | .buyRec _ _ _ _ => none
  | .sellRec _ _ _ p => some p

/-- State of SimpleBacktester: initial_capital and commission are set by the
constructor; capital, position and the trade log evolve with execute_trade.
The equity curve is kept by the driving loop and is modelled separately. -/
structure Backtester where
  initial_capital : ℚ
  commission : ℚ
  capital : ℚ
  position : ℚ
  trades : List TradeRec
  deriving DecidableEq, Repr

/-- Constructor plus reset: capital starts at initial_capital, position at 0,
an empty trade log. -/
def mkBacktester (initial_capital commission : ℚ) : Backtester :=
  { initial_capital := initial_capital
    commission := commission
    capital := initial_capital
    position := 0
    trades := [] }

/-- Embedding of SimpleBacktester.execute_trade. cost is the absolute notional
value, commission_cost the proportional fee; a positive shares argument is a
buy (applied only when total_cost fits in capital), otherwise the sell branch
runs on the absolute size (applied only when it does not exceed the position).
A rejected order leaves the state unchanged and records nothing. -/
def execute_trade (b : Backtester) (price shares : ℚ) (timestamp : Nat) :
    Backtester :=
  let cost := |shares * price|
  let commission_cost := cost * b.commission
  if 0 < shares then
    let total_cost := cost + commission_cost
    if total_cost ≤ b.capital then
      { b with
        capital := b.capital - total_cost
        position := b.position + shares
        trades := b.trades ++ [.buyRec timestamp price shares total_cost] }
    else b
  else
    let shares_to_sell := |shares|
    if shares_to_sell ≤ b.position then
      let proceeds := cost - commission_cost
      { b with
        capital := b.capital + proceeds
        position := b.position - shares_to_sell
        trades := b.trades ++ [.sellRec timestamp price shares_to_sell proceeds] }
    else b

/-- Folding a list of orders (price, shares, timestamp) through the ledger, as
the bar loop of run_sma_crossover_backtest does. -/
def applyOrders (b : Backtester) (ops : List (ℚ × ℚ × Nat)) : Backtester :=
  ops.foldl (fun st op => execute_trade st op.1 op.2.1 op.2.2) b

/-- Winning-trade test of run_sma_crossover_backtest: the record has type SELL
and its proceeds (default 0) exceed its cost field, whose Python default is
float infinity — an absent cost key therefore makes the comparison false. -/
def winFlag (t : TradeRec) : Bool :=
  t.ttype == "SELL" &&
    (match t.costField with
     | some c => decide (c < (t.proceedsField).getD 0)
     | none => false)

/-- Count of winning trades in the analytics of run_sma_crossover_backtest. -/
def winning_trades (trades : List TradeRec) : ℕ :=
  (trades.filter winFlag).length

/-- Count of SELL trades in the analytics of run_sma_crossover_backtest. -/
def total_sell_trades (trades : List TradeRec) : ℕ :=
  (trades.filter (fun t => t.ttype == "SELL")).length

/-- Win rate of run_sma_crossover_backtest: winning over total SELL count when
any SELL exists, else 0. -/
def win_rate (trades : List TradeRec) : ℚ :=
  if 0 < total_sell_trades trades then
    (winning_trades trades : ℚ) / (total_sell_trades trades : ℚ)
  else 0

/-- Running maximum continued from an already-seen peak m, one output per
input element. -/
def runMaxFrom (m : ℚ) : List ℚ → List ℚ
  | [] => []
  | x :: xs => max m x :: runMaxFrom (max m x) xs

/-- Expanding maximum of pandas in run_sma_crossover_backtest: element i is
the largest value among the first i+1 inputs. -/
def runningMax : List ℚ → List ℚ
  | [] => []
  | x :: xs => x :: runMaxFrom x xs

/-- Drawdown series of run_sma_crossover_backtest: pointwise
(value - running max) / running max over the equity values. -/
def drawdownSeries (equity : List ℚ) : List ℚ :=
  List.zipWith (fun v m => (v - m) / m) equity (runningMax equity)

/-- Minimum of the drawdown series, as the pandas min call computes it on a
non-empty series; the empty case is unreachable for a run with at least one
bar and is given the value 0. -/
def max_drawdown (equity : List ℚ) : ℚ :=
  match drawdownSeries equity with
  | [] => 0
  | d :: ds => ds.foldl min d

/-- Formulation following the words of the spec, for comparison with the code
formulation: the running maximum of the first i+1 equity values. -/
def running_max_upto (equity : List ℚ) (i : ℕ) : ℚ :=
  match equity.take (i + 1) with
  | [] => 0
  | x :: xs => xs.foldl max x

/-- Formulation following the words of the spec: drawdown at index i is
(equity at index i minus the running maximum up to i) over that maximum. -/
def drawdown_at (equity : List ℚ) (i : ℕ) : ℚ :=
  (equity.getD i 0 - running_max_upto equity i) / running_max_upto equity i

end Backtest

namespace Strategy

/-- Trade dataclass of base_strategy.py; instances of it do carry a pnl
attribute. -/
structure Trade where
  entry_time : Nat
  exit_time : Nat
  entry_price : ℚ
  exit_price : ℚ
  size : ℚ
  pnl : ℚ
  return_pct : ℚ
  deriving DecidableEq, Repr

/-- Entry of a strategy trade list. The declared type is a list of Trade
dataclasses, but MeanReversionStrategy appends plain dicts with keys pnl,
return, entry and exit; both shapes therefore occur at runtime. -/
inductive TradeEntry where
  | dataclassRec (t : Trade)
  | dictRec (pnl return_pct entry exitPrice : ℚ)
  deriving DecidableEq, Repr

/-- Attribute access t.pnl: defined on the Trade dataclass, an AttributeError
(no value) on a plain dict record. -/
def TradeEntry.pnlAttr : TradeEntry → Option ℚ
  | .dataclassRec t => some t.pnl
  | .dictRec _ _ _ _ => none

/-- Fields a strategy owns after BaseStrategy.__init__. -/
structure BaseState where
  name : String
  position : ℚ
  trades : List TradeEntry
  equity_curve : List ℚ
  current_capital : ℚ
  deriving DecidableEq, Repr

/-- Embedding of BaseStrategy.buy: adds size to the position and touches
nothing else (the price argument of the Python method is unused). -/
def buy (s : BaseState) (size : ℚ) : BaseState :=
  { s with position := s.position + size }

/-- Embedding of BaseStrategy.sell: an omitted size (none) means the whole
position; the position is decreased with no inventory check and nothing else
changes (the price argument of the Python method is unused). -/
def sell (s : BaseState) (size : Option ℚ) : BaseState :=
  let sz := size.getD s.position
  { s with position := s.position - sz }

/-- Embedding of BaseStrategy.calculate_position_size with its fixed
fractional placeholder rule. -/
def calculate_position_size (s : BaseState) (risk_per_trade : ℚ) : ℚ :=
  s.current_capital * risk_per_trade / 100

/-- Round half to even on an exact rational, the rounding mode of the Python
round builtin (idealized to exact decimal arithmetic). -/
def roundHalfEven (q : ℚ) : ℤ :=
  let f := ⌊q⌋
  let r := q - f
  if r < 1 / 2 then f
  else if 1 / 2 < r then f + 1
  else if Even f then f else f + 1

/-- Python round(q, n) on an exact rational. -/
def pyRound (q : ℚ) (n : ℕ) : ℚ :=
  (roundHalfEven (q * 10 ^ n) : ℚ) / 10 ^ n

/-- Full metrics dict of BaseStrategy.get_metrics on a non-empty trade list. -/
structure MetricsFull where
  total_trades : ℕ
  winning_trades : ℕ
  losing_trades : ℕ
  win_rate : ℚ
  total_pnl : ℚ
  average_win : ℚ
  average_loss : ℚ
  deriving DecidableEq, Repr

/-- Result shape of get_metrics: the one-key dict on an empty trade list, or
the full dict. -/
inductive Metrics where
  | onlyTotal (total_trades : ℕ)
  | full (m : MetricsFull)
  deriving DecidableEq, Repr

/-- Embedding of BaseStrategy.get_metrics. Reading t.pnl from every list entry
is modelled by mapM over pnlAttr: any dict-shaped entry makes the whole call
fail, as the AttributeError does in Python. -/
def get_metrics (trades : List TradeEntry) : Except String Metrics :=
  if trades.isEmpty then .ok (.onlyTotal 0)
  else
    match trades.mapM TradeEntry.pnlAttr with
    | none => .error "AttributeError: dict object has no attribute pnl"
    | some pnls =>
      let winning := pnls.filter (fun p => decide (0 < p))
      let losing := pnls.filter (fun p => decide (p < 0))
      let total_pnl := pnls.sum
      let wr := (winning.length : ℚ) / (trades.length : ℚ)
      let avg_win := if winning.isEmpty then 0
        else winning.sum / (winning.length : ℚ)
      let avg_loss := if losing.isEmpty then 0
        else losing.sum / (losing.length : ℚ)
      .ok (.full
        { total_trades := trades.length
          winning_trades := winning.length
          losing_trades := losing.length
          win_rate := pyRound wr 3
          total_pnl := pyRound total_pnl 2
          average_win := pyRound avg_win 2
          average_loss := pyRound avg_loss 2 })

/-- State of MeanReversionStrategy: the inherited BaseStrategy fields plus the
RSI configuration, the trailing price history, and the optional entry price. -/
structure MRState where
  base : BaseState
  rsi_period : ℕ
  rsi_oversold : ℚ
  rsi_overbought : ℚ
  price_history : List ℚ
  entry_price : Option ℚ
  deriving DecidableEq, Repr

/-- Embedding of MeanReversionStrategy.__init__: the options are stored as
given, with no validation of any kind, over a fresh BaseStrategy state. -/
def mkMeanReversion (name : String) (rsi_period : ℕ)
    (rsi_oversold rsi_overbought : ℚ) : MRState :=
  { base := { name := name, position := 0, trades := [], equity_curve := [],
              current_capital := 0 }
    rsi_period := rsi_period
    rsi_oversold := rsi_oversold
    rsi_overbought := rsi_overbought
    price_history := []
    entry_price := none }

/-- Python slice xs[-n:] for n at least 1: the last n elements, or all of them
when fewer exist. -/
def lastSlice (n : ℕ) (xs : List ℚ) : List ℚ :=
  xs.drop (xs.length - n)

/-- Consecutive differences, as numpy diff produces them. -/
def diffs : List ℚ → List ℚ
  | x :: y :: rest => (y - x) :: diffs (y :: rest)
  | _ => []

/-- Embedding of MeanReversionStrategy._calculate_rsi: gains and losses of the
consecutive differences of the trailing rsi_period + 1 prices, averaged by
numpy mean (sum over length), with the zero-average-loss branch returning 100
before any division by the average loss happens. -/
def calculate_rsi (s : MRState) : ℚ :=
  let prices := lastSlice (s.rsi_period + 1) s.price_history
  let deltas := diffs prices
  let gains := deltas.map (fun d => if 0 < d then d else 0)
  let losses := deltas.map (fun d => if d < 0 then -d else 0)
  let avg_gain := gains.sum / (gains.length : ℚ)
  let avg_loss := losses.sum / (losses.length : ℚ)
  if avg_loss = 0 then 100
  else
    let rs := avg_gain / avg_loss
    100 - 100 / (1 + rs)

/-- Embedding of MeanReversionStrategy._record_trade: guarded by Python
truthiness of entry_price (neither None nor 0), it appends a plain dict record
whose pnl is (exit price - entry price) times the position the strategy holds
at the moment of the call. -/
def record_trade (s : MRState) (exit_price : ℚ) : MRState :=
  match s.entry_price with
  | some ep =>
    if ep ≠ 0 then
      let pnl := (exit_price - ep) * s.base.position
      let return_pct := (exit_price - ep) / ep
      { s with base := { s.base with
          trades := s.base.trades ++ [.dictRec pnl return_pct ep exit_price] } }
    else s
  | none => s

/-- Exit statements of MeanReversionStrategy.on_data, identical in the
take-profit and stop-loss branches: sell the whole position, record the trade,
clear the entry price — in that order. -/
def exitLong (s : MRState) (close_price : ℚ) : MRState :=
  let s1 := { s with base := sell s.base none }
  let s2 := record_trade s1 close_price
  { s2 with entry_price := none }

/-- Embedding of MeanReversionStrategy.on_data: the close is appended to the
history; with fewer than rsi_period + 1 observations the method returns at
once; otherwise the RSI drives entry (flat and oversold: buy the placeholder
size and remember the entry price) and exit (long and overbought, or long and
below 95 percent of a truthy entry price: exit). -/
def on_data (s0 : MRState) (close_price : ℚ) : MRState :=
  let s := { s0 with price_history := s0.price_history ++ [close_price] }
  if s.price_history.length < s.rsi_period + 1 then s
  else
    let rsi := calculate_rsi s
    if s.base.position = 0 then
      if rsi < s.rsi_oversold then
        let size := calculate_position_size s.base (2 / 100)
        { s with base := buy s.base size, entry_price := some close_price }
      else s
    else if 0 < s.base.position then
      if s.rsi_overbought < rsi then
        exitLong s close_price
      else
        match s.entry_price with
        | some ep =>
          if ep ≠ 0 ∧ close_price < ep * (95 / 100) then
            exitLong s close_price
          else s
        | none => s
    else s

/-- Folding a bar sequence of closes through the strategy. -/
def runBars (s : MRState) (closes : List ℚ) : MRState :=
  closes.foldl on_data s

end Strategy

namespace Backtest

/-- Evaluation of the accepted buy branch of execute_trade. -/
lemma execute_trade_buy_accept (b : Backtester) (price shares : ℚ) (ts : Nat)
    (hs : 0 < shares)
    (hc : |shares * price| + |shares * price| * b.commission ≤ b.capital) :
    execute_trade b price shares ts =
      { b with
        capital := b.capital - (|shares * price| + |shares * price| * b.commission)
        position := b.position + shares
        trades := b.trades ++
          [.buyRec ts price shares
            (|shares * price| + |shares * price| * b.commission)] } := by
  simp only [execute_trade, if_pos hs, if_pos hc]

/-- Evaluation of the rejected buy branch of execute_trade. -/
lemma execute_trade_buy_reject (b : Backtester) (price shares : ℚ) (ts : Nat)
    (hs : 0 < shares)
    (hc : ¬ |shares * price| + |shares * price| * b.commission ≤ b.capital) :
    execute_trade b price shares ts = b := by
  simp only [execute_trade, if_pos hs, if_neg hc]

/-- Evaluation of the accepted sell branch of execute_trade. -/
lemma execute_trade_sell_accept (b : Backtester) (price shares : ℚ) (ts : Nat)
    (hs : ¬ 0 < shares) (hc : |shares| ≤ b.position) :
    execute_trade b price shares ts =
      { b with
        capital := b.capital +
          (|shares * price| - |shares * price| * b.commission)
        position := b.position - |shares|
        trades := b.trades ++
          [.sellRec ts price |shares|
            (|shares * price| - |shares * price| * b.commission)] } := by
  simp only [execute_trade, if_neg hs, if_pos hc]

/-- Evaluation of the rejected sell branch of execute_trade. -/
lemma execute_trade_sell_reject (b : Backtester) (price shares : ℚ) (ts : Nat)
    (hs : ¬ 0 < shares) (hc : ¬ |shares| ≤ b.position) :
    execute_trade b price shares ts = b := by
  simp only [execute_trade, if_neg hs, if_neg hc]

/-- Appending a trade always changes the trade log, so an accepted order never
returns the unchanged state. -/
lemma accepted_ne_self (b : Backtester) (t : TradeRec)
    (cap pos : ℚ)
    (h : { b with
            capital := cap
            position := pos
            trades := b.trades ++ [t] } = b) : False := by
  have := congrArg Backtester.trades h
  simp at this

/-- C5: buy rejection happens exactly when total cost
shares times price times (1 + commission) exceeds available cash, an accepted
buy debits exactly the total cost, credits the position by the requested
shares, and appends a BUY record carrying the total cost; sell rejection
happens exactly when the requested size exceeds the position, an accepted sell
credits exactly size times price times (1 - commission), debits the position
by the size, and appends a SELL record carrying those proceeds. -/
theorem execute_trade_ledger_C5 (b : Backtester) (price shares : ℚ) (ts : Nat)
    (hp : 0 ≤ price) :
    (0 < shares →
      ((execute_trade b price shares ts = b ↔
          b.capital < shares * price * (1 + b.commission)) ∧
       (shares * price * (1 + b.commission) ≤ b.capital →
         execute_trade b price shares ts =
           { b with
             capital := b.capital - shares * price * (1 + b.commission)
             position := b.position + shares
             trades := b.trades ++
               [.buyRec ts price shares
                 (shares * price * (1 + b.commission))] }))) ∧
    (shares ≤ 0 →
      ((execute_trade b price shares ts = b ↔ b.position < -shares) ∧
       (-shares ≤ b.position →
         execute_trade b price shares ts =
           { b with
             capital := b.capital + -shares * price * (1 - b.commission)
             position := b.position - -shares
             trades := b.trades ++
               [.sellRec ts price (-shares)
                 (-shares * price * (1 - b.commission))] }))) := by
  constructor
  · intro hs
    have habs : |shares * price| = shares * price :=
      abs_of_nonneg (mul_nonneg hs.le hp)
    have ecost : |shares * price| + |shares * price| * b.commission =
        shares * price * (1 + b.commission) := by rw [habs]; ring
    by_cases hc : shares * price * (1 + b.commission) ≤ b.capital
    · have hacc := execute_trade_buy_accept b price shares ts hs (by rw [ecost]; exact hc)
      rw [ecost] at hacc
      refine ⟨iff_of_false (fun h => accepted_ne_self _ _ _ _ (hacc ▸ h)) (not_lt.mpr hc),
        fun _ => hacc⟩
    · have hrej := execute_trade_buy_reject b price shares ts hs (by rw [ecost]; exact hc)
      exact ⟨iff_of_true hrej (not_le.mp hc), fun h => absurd h hc⟩
  · intro hs
    have habs : |shares| = -shares := abs_of_nonpos hs
    have habsm : |shares * price| = -shares * price := by
      rw [abs_of_nonpos (mul_nonpos_of_nonpos_of_nonneg hs hp)]; ring
    have eproc : |shares * price| - |shares * price| * b.commission =
        -shares * price * (1 - b.commission) := by rw [habsm]; ring
    have hns : ¬ 0 < shares := not_lt.mpr hs
    by_cases hc : -shares ≤ b.position
    · have hacc := execute_trade_sell_accept b price shares ts hns (by rw [habs]; exact hc)
      rw [eproc, habs] at hacc
      refine ⟨iff_of_false (fun h => accepted_ne_self _ _ _ _ (hacc ▸ h)) (not_lt.mpr hc),
        fun _ => hacc⟩
    · have hrej := execute_trade_sell_reject b price shares ts hns (by rw [habs]; exact hc)
      exact ⟨iff_of_true hrej (not_le.mp hc), fun h => absurd h hc⟩

/-- Witness for C5 on concrete orders: an affordable buy of one share at 10,
then a reject of a 2-share sell against a 1-share position. -/
theorem execute_trade_ledger_C5_witness :
    execute_trade (mkBacktester 100 (1/1000)) 10 1 0 =
      { mkBacktester 100 (1/1000) with
        capital := 100 - 1 * 10 * (1 + 1/1000)
        position := 0 + 1
        trades := [.buyRec 0 10 1 (1 * 10 * (1 + 1/1000))] } ∧
    execute_trade (mkBacktester 100 (1/1000)) 10 (-2) 1 =
      mkBacktester 100 (1/1000) := by
  constructor
  · exact ((execute_trade_ledger_C5 (mkBacktester 100 (1/1000)) 10 1 0
      (by norm_num)).1 (by norm_num)).2 (by norm_num [mkBacktester])
  · exact ((execute_trade_ledger_C5 (mkBacktester 100 (1/1000)) 10 (-2) 1
      (by norm_num)).2 (by norm_num)).1.mpr (by norm_num [mkBacktester])

/-- Commission is configuration: execute_trade never changes it. -/
lemma execute_trade_commission (b : Backtester) (price shares : ℚ) (ts : Nat) :
    (execute_trade b price shares ts).commission = b.commission := by
  simp only [execute_trade]
  split
  · split <;> rfl
  · split <;> rfl

/-- One execute_trade step keeps cash non-negative: a buy is guarded by
affordability, a rejected order changes nothing, and an accepted sell adds
proceeds that are non-negative whenever the commission rate is at most 1. -/
lemma execute_trade_capital_nonneg (b : Backtester) (price shares : ℚ)
    (ts : Nat) (hcomm : b.commission ≤ 1) (hcap : 0 ≤ b.capital) :
    0 ≤ (execute_trade b price shares ts).capital := by
  simp only [execute_trade]
  split
  · split
    · rename_i hc
      simpa using hc
    · exact hcap
  · split
    · rename_i hc
      have hproc : 0 ≤ |shares * price| - |shares * price| * b.commission := by
        have h0 : 0 ≤ |shares * price| := abs_nonneg _
        nlinarith
      simpa using add_nonneg hcap hproc
    · exact hcap

/-- One execute_trade step keeps the position non-negative: buys add a
positive share count and sells are guarded by the inventory check. -/
lemma execute_trade_position_nonneg (b : Backtester) (price shares : ℚ)
    (ts : Nat) (hpos : 0 ≤ b.position) :
    0 ≤ (execute_trade b price shares ts).position := by
  simp only [execute_trade]
  split
  · split
    · rename_i hs _
      simpa using add_nonneg hpos hs.le
    · exact hpos
  · split
    · rename_i hc
      simpa using hc
    · exact hpos

/-- Cash stays non-negative along any order sequence, for any starting state
whose commission rate is at most 1. -/
lemma applyOrders_capital_nonneg (ops : List (ℚ × ℚ × Nat)) :
    ∀ b : Backtester, b.commission ≤ 1 → 0 ≤ b.capital →
      0 ≤ (applyOrders b ops).capital := by
  induction ops with
  | nil => intro b _ hcap; exact hcap
  | cons op rest ih =>
    intro b hcomm hcap
    have hstep := execute_trade_capital_nonneg b op.1 op.2.1 op.2.2 hcomm hcap
    have hcomm2 : (execute_trade b op.1 op.2.1 op.2.2).commission ≤ 1 := by
      rw [execute_trade_commission]; exact hcomm
    exact ih _ hcomm2 hstep

/-- Position stays non-negative along any order sequence. -/
lemma applyOrders_position_nonneg (ops : List (ℚ × ℚ × Nat)) :
    ∀ b : Backtester, 0 ≤ b.position → 0 ≤ (applyOrders b ops).position := by
  induction ops with
  | nil => intro b hpos; exact hpos
  | cons op rest ih =>
    intro b hpos
    exact ih _ (execute_trade_position_nonneg b op.1 op.2.1 op.2.2 hpos)

/-- C3: starting from a non-negative initial capital, with the proportional
commission rate of the run (any rate between 0 and 1 covers the configured
0.001), the cash balance of the ledger is non-negative after every executed
order, hence after every bar of a run. -/
theorem cash_never_negative_C3 (init comm : ℚ) (hinit : 0 ≤ init)
    (_hc0 : 0 ≤ comm) (hc1 : comm ≤ 1) (ops : List (ℚ × ℚ × Nat)) :
    0 ≤ (applyOrders (mkBacktester init comm) ops).capital :=
  applyOrders_capital_nonneg ops (mkBacktester init comm) hc1 hinit

/-- Witness for C3: a run with the configured capital 10000 and commission
0.001 over a buy, an oversized buy, and a full sell. -/
theorem cash_never_negative_C3_witness :
    0 ≤ (applyOrders (mkBacktester 10000 (1/1000))
      [(10, 5, 0), (10000, 2, 1), (20, -5, 2)]).capital :=
  cash_never_negative_C3 10000 (1/1000) (by norm_num) (by norm_num)
    (by norm_num) [(10, 5, 0), (10000, 2, 1), (20, -5, 2)]

end Backtest

namespace Strategy

/-- Counterexample for C4: at the strategy level nothing guards a sell, so a
single oversized BaseStrategy.sell drives the position below zero. -/
theorem strategy_sell_shorts_C4_cex :
    (sell { name := "s", position := 0, trades := [], equity_curve := [],
            current_capital := 0 } (some 1)).position < 0 := by
  norm_num [sell]

/-- C4 as amended: the ledger keeps the position non-negative under every
sequence of buy and sell orders, while the strategy level has no inventory
check — there a buy of non-negative size and a sell of at most the current
position (in particular the omitted-size sell of the whole position) preserve
non-negativity, but nothing smaller than that restriction does. -/
theorem position_never_negative_C4 :
    (∀ (b : Backtest.Backtester) (ops : List (ℚ × ℚ × Nat)), 0 ≤ b.position →
       0 ≤ (Backtest.applyOrders b ops).position) ∧
    (∀ (s : BaseState) (z : ℚ), 0 ≤ s.position → 0 ≤ z →
       0 ≤ (buy s z).position) ∧
    (∀ s : BaseState, (sell s none).position = 0) ∧
    (∀ (s : BaseState) (z : ℚ), z ≤ s.position →
       0 ≤ (sell s (some z)).position) := by
  refine ⟨fun b ops hpos => Backtest.applyOrders_position_nonneg ops b hpos,
    fun s z h0 hz => ?_, fun s => ?_, fun s z hz => ?_⟩
  · simpa [buy] using add_nonneg h0 hz
  · simp [sell]
  · simp only [sell, Option.getD_some]
    exact sub_nonneg.mpr hz

/-- Witness for C4 at concrete inputs: a ledger run of a buy and a full sell,
a strategy buy of size 2, an omitted-size sell, and a covered sell. -/
theorem position_never_negative_C4_witness :
    (0 ≤ (Backtest.applyOrders (Backtest.mkBacktester 100 0)
        [(10, 3, 0), (10, -3, 1)]).position) ∧
    0 ≤ (buy { name := "s", position := 0, trades := [], equity_curve := [],
               current_capital := 0 } 2).position ∧
    (sell { name := "s", position := 5, trades := [], equity_curve := [],
            current_capital := 0 } none).position = 0 ∧
    0 ≤ (sell { name := "s", position := 5, trades := [], equity_curve := [],
                current_capital := 0 } (some 4)).position :=
  ⟨position_never_negative_C4.1 (Backtest.mkBacktester 100 0)
      [(10, 3, 0), (10, -3, 1)] (by norm_num [Backtest.mkBacktester]),
   position_never_negative_C4.2.1 _ 2 (by norm_num) (by norm_num),
   position_never_negative_C4.2.2.1 _,
   position_never_negative_C4.2.2.2 _ 4 (by norm_num)⟩

end Strategy

namespace Backtest

/-- Any trade record fails the winning test: a BUY is not of type SELL, and a
SELL has no cost key, so its defaulted cost of infinity is never exceeded. -/
lemma winFlag_false (t : TradeRec) : winFlag t = false := by
  cases t <;> rfl

/-- Consequence: the winning count of the analytics is zero on every log. -/
lemma winning_trades_eq_zero (trades : List TradeRec) :
    winning_trades trades = 0 := by
  unfold winning_trades
  rw [List.filter_eq_nil_iff.mpr (fun t _ => by rw [winFlag_false]; simp)]
  rfl

/-- C1 fails on the code: because a SELL record carries no cost key, the
winning comparison reads the default of positive infinity and is false for
every trade, so win_rate is 0 on every trade log — also on a run with a
strictly profitable round trip, where the claim requires 1. -/
theorem win_rate_C1 :
    (∀ trades : List TradeRec,
       winning_trades trades = 0 ∧ win_rate trades = 0) ∧
    ((applyOrders (mkBacktester 10000 (1/1000)) [(10, 1, 0), (20, -1, 1)]).trades
        = [.buyRec 0 10 1 (1001/100), .sellRec 1 20 1 (999/50)] ∧
     (1001/100 : ℚ) < 999/50 ∧
     win_rate (applyOrders (mkBacktester 10000 (1/1000))
        [(10, 1, 0), (20, -1, 1)]).trades = 0) := by
  have hz : ∀ trades : List TradeRec, winning_trades trades = 0 ∧
      win_rate trades = 0 := by
    intro trades
    refine ⟨winning_trades_eq_zero trades, ?_⟩
    unfold win_rate
    split
    · rw [winning_trades_eq_zero]
      norm_num
    · rfl
  refine ⟨hz, ?_, by norm_num, (hz _).2⟩
  norm_num [applyOrders, List.foldl, execute_trade, mkBacktester,
    abs_of_nonneg, abs_of_nonpos]

end Backtest

namespace Strategy

/-- C2 fails on the code: in the take-profit exit of the Mean-Reversion
Strategy below, a long position of 5 bought at 10 leaves at 13, so the claim
requires a PnL record of (13 - 10) times 5 = 15; the code sells first, zeroing
the position, and only then records the trade, so the appended PnL is
(13 - 10) times 0 = 0 (the entry price is cleared as claimed). -/
theorem record_exit_pnl_C2 :
    (on_data
        { base := { name := "m", position := 5, trades := [], equity_curve := [],
                    current_capital := 0 }
          rsi_period := 2
          rsi_oversold := 30
          rsi_overbought := 70
          price_history := [10, 11, 12]
          entry_price := some 10 } 13).base.trades =
      [.dictRec 0 (3/10) 10 13] ∧
    (on_data
        { base := { name := "m", position := 5, trades := [], equity_curve := [],
                    current_capital := 0 }
          rsi_period := 2
          rsi_oversold := 30
          rsi_overbought := 70
          price_history := [10, 11, 12]
          entry_price := some 10 } 13).entry_price = none ∧
    ((13 : ℚ) - 10) * 5 = 15 ∧ (0 : ℚ) ≠ 15 := by
  refine ⟨?_, ?_, by norm_num, by norm_num⟩ <;>
    norm_num [on_data, calculate_rsi, lastSlice, diffs, exitLong, record_trade,
      sell, List.foldl]

/-- Exit statements leave the price history alone. -/
lemma exitLong_price_history (s : MRState) (c : ℚ) :
    (exitLong s c).price_history = s.price_history := by
  unfold exitLong record_trade
  cases s.entry_price
  · rfl
  · dsimp only
    split <;> rfl

/-- Whatever branch on_data takes, its only effect on the price history is to
append the close of the bar. -/
lemma on_data_price_history (s : MRState) (c : ℚ) :
    (on_data s c).price_history = s.price_history ++ [c] := by
  unfold on_data
  dsimp only
  split
  · rfl
  · split
    · split <;> rfl
    · split
      · split
        · exact exitLong_price_history _ _
        · split
          · split
            · exact exitLong_price_history _ _
            · rfl
          · rfl
      · rfl

/-- Counterexample for C8: overbought 30 is below oversold 70, an invalid
configuration, yet the constructed strategy raises nothing, processes three
bars (its trailing history grows normally), and even acts on the bogus signal
by remembering an entry price. -/
theorem config_not_validated_C8_cex :
    (70 : ℚ) ≥ 30 ∧
    (runBars (mkMeanReversion "x" 2 70 30) [12, 11, 10]).price_history =
      [12, 11, 10] ∧
    (runBars (mkMeanReversion "x" 2 70 30) [12, 11, 10]).entry_price =
      some 10 := by
  refine ⟨by norm_num, ?_, ?_⟩ <;>
    norm_num [runBars, List.foldl, on_data, calculate_rsi, lastSlice, diffs,
      mkMeanReversion, buy, calculate_position_size]

/-- C8 as amended: the Mean-Reversion constructor performs no validation at
all — any options, including invalid periods and thresholds, are stored as
given over a fresh state, and the first bar is processed normally (the close
is recorded in the trailing history) instead of any error being reported. -/
theorem config_not_validated_C8 :
    ∀ (name : String) (p : ℕ) (os ob : ℚ),
      (mkMeanReversion name p os ob).rsi_period = p ∧
      (mkMeanReversion name p os ob).rsi_oversold = os ∧
      (mkMeanReversion name p os ob).rsi_overbought = ob ∧
      (mkMeanReversion name p os ob).base.position = 0 ∧
      (mkMeanReversion name p os ob).base.trades = [] ∧
      (mkMeanReversion name p os ob).price_history = [] ∧
      ∀ close : ℚ,
        (on_data (mkMeanReversion name p os ob) close).price_history =
          [close] := by
  intro name p os ob
  refine ⟨rfl, rfl, rfl, rfl, rfl, rfl, fun close => ?_⟩
  rw [on_data_price_history]
  rfl

/-- Dict-shaped test on a trade-list entry. -/
def TradeEntry.isDict : TradeEntry → Bool
  | .dictRec _ _ _ _ => true
  | .dataclassRec _ => false

/-- Appending records keeps the trade list dict-shaped. -/
lemma record_trade_all_dict (s : MRState) (c : ℚ)
    (h : ∀ t ∈ s.base.trades, t.isDict = true) :
    ∀ t ∈ (record_trade s c).base.trades, t.isDict = true := by
  unfold record_trade
  cases s.entry_price
  · exact h
  · dsimp only
    split
    · intro t ht
      rcases List.mem_append.mp ht with hl | hr
      · exact h t hl
      · rcases List.mem_singleton.mp hr with rfl
        rfl
    · exact h

/-- The exit statements keep the trade list dict-shaped. -/
lemma exitLong_all_dict (s : MRState) (c : ℚ)
    (h : ∀ t ∈ s.base.trades, t.isDict = true) :
    ∀ t ∈ (exitLong s c).base.trades, t.isDict = true := by
  unfold exitLong
  exact record_trade_all_dict _ c h

/-- Every record MeanReversionStrategy ever appends is a plain dict. -/
lemma on_data_all_dict (s : MRState) (c : ℚ)
    (h : ∀ t ∈ s.base.trades, t.isDict = true) :
    ∀ t ∈ (on_data s c).base.trades, t.isDict = true := by
  unfold on_data
  dsimp only
  split
  · exact h
  · split
    · split
      · exact h
      · exact h
    · split
      · split
        · exact exitLong_all_dict _ _ h
        · split
          · split
            · exact exitLong_all_dict _ _ h
            · exact h
          · exact h
      · exact h

/-- C10: get_metrics on an empty trade list returns the one-key dict with a
zero total; but once the Mean-Reversion strategy has recorded any trade, its
list holds only plain dict records — a shape on_data preserves from the empty
start — and get_metrics, which reads the pnl attribute of every entry, fails
with an AttributeError instead of returning metrics. -/
theorem get_metrics_C10 :
    get_metrics [] = .ok (.onlyTotal 0) ∧
    (∀ (s : MRState) (close : ℚ),
       (∀ t ∈ s.base.trades, t.isDict = true) →
       ∀ t ∈ (on_data s close).base.trades, t.isDict = true) ∧
    (∀ trades : List TradeEntry, trades ≠ [] →
       (∀ t ∈ trades, t.isDict = true) →
       get_metrics trades =
         .error "AttributeError: dict object has no attribute pnl") := by
  refine ⟨rfl, on_data_all_dict, ?_⟩
  intro trades hne hdict
  match trades with
  | [] => exact absurd rfl hne
  | t :: rest =>
    have hpnl : t.pnlAttr = none := by
      have := hdict t (List.mem_cons_self t rest)
      cases t
      · simp [TradeEntry.isDict] at this
      · rfl
    unfold get_metrics
    rw [if_neg (by simp)]
    rw [List.mapM_cons, hpnl]
    rfl

/-- Witness for C10: the empty list gives the one-key dict, a singleton dict
record makes the call fail. -/
theorem get_metrics_C10_witness :
    get_metrics [] = .ok (.onlyTotal 0) ∧
    get_metrics [TradeEntry.dictRec 0 0 10 13] =
      .error "AttributeError: dict object has no attribute pnl" :=
  ⟨get_metrics_C10.1,
   get_metrics_C10.2.2 [TradeEntry.dictRec 0 0 10 13] (by simp)
     (fun t ht => by rcases List.mem_singleton.mp ht with rfl; rfl)⟩

/-- C9: the strategy-level order operations are pure position bookkeeping — a
buy adds its size to the position, a sell subtracts its size (the whole
position when the size is omitted), and neither touches the running capital,
the trade list, or the equity curve, so no cash accounting and no solvency
check happens at this level. -/
theorem base_order_frame_C9 (s : BaseState) (size : ℚ) :
    (buy s size).position = s.position + size ∧
    (buy s size).current_capital = s.current_capital ∧
    (buy s size).trades = s.trades ∧
    (buy s size).equity_curve = s.equity_curve ∧
    (∀ z : ℚ, (sell s (some z)).position = s.position - z) ∧
    (sell s none).position = 0 ∧
    (∀ oz : Option ℚ, (sell s oz).current_capital = s.current_capital ∧
       (sell s oz).trades = s.trades ∧
       (sell s oz).equity_curve = s.equity_curve) :=
  ⟨rfl, rfl, rfl, rfl, fun _ => rfl, by simp [sell], fun _ => ⟨rfl, rfl, rfl⟩⟩

/-- Length of a trailing slice. -/
lemma lastSlice_length (n : ℕ) (xs : List ℚ) :
    (lastSlice n xs).length = xs.length - (xs.length - n) := by
  unfold lastSlice
  rw [List.length_drop]

/-- Consecutive differences are one shorter than their input. -/
lemma diffs_length : ∀ xs : List ℚ, (diffs xs).length = xs.length - 1
  | [] => rfl
  | [_] => rfl
  | x :: y :: rest => by
    simp only [diffs, List.length_cons, diffs_length (y :: rest)]
    omega

/-- C6: with a full trailing window the RSI of the code equals the formula of
the spec — gains and losses averaged over exactly rsi_period steps, 100 minus
100 over (1 plus their ratio), and exactly 100 whenever the average loss is
zero without dividing by it; with a short history, on_data only records the
close and changes nothing else. -/
theorem rsi_C6 :
    (∀ (s : MRState) (close : ℚ),
       s.price_history.length + 1 < s.rsi_period + 1 →
       on_data s close = { s with price_history := s.price_history ++ [close] }) ∧
    (∀ s : MRState, 1 ≤ s.rsi_period →
       s.rsi_period + 1 ≤ s.price_history.length →
       calculate_rsi s =
         (let deltas := diffs (lastSlice (s.rsi_period + 1) s.price_history)
          let avg_gain := (deltas.map (fun d => if 0 < d then d else 0)).sum /
            (s.rsi_period : ℚ)
          let avg_loss := (deltas.map (fun d => if d < 0 then -d else 0)).sum /
            (s.rsi_period : ℚ)
          if avg_loss = 0 then 100
          else 100 - 100 / (1 + avg_gain / avg_loss))) := by
  constructor
  · intro s close h
    unfold on_data
    dsimp only
    rw [if_pos (by simp only [List.length_append, List.length_singleton]; omega)]
  · intro s hp hlen
    have h1 : (lastSlice (s.rsi_period + 1) s.price_history).length =
        s.rsi_period + 1 := by
      rw [lastSlice_length]; omega
    have h2 : (diffs (lastSlice (s.rsi_period + 1) s.price_history)).length =
        s.rsi_period := by
      rw [diffs_length, h1]
      omega
    unfold calculate_rsi
    dsimp only
    rw [List.length_map, List.length_map, h2]

/-- Witness for C6: a first bar against a period-3 window is only recorded,
and a rising window of three closes with period 2 has zero average loss and
RSI exactly 100. -/
theorem rsi_C6_witness :
    on_data (mkMeanReversion "x" 3 30 70) 5 =
      { mkMeanReversion "x" 3 30 70 with price_history := [5] } ∧
    calculate_rsi
      { base := { name := "x", position := 0, trades := [], equity_curve := [],
                  current_capital := 0 }
        rsi_period := 2
        rsi_oversold := 30
        rsi_overbought := 70
        price_history := [10, 11, 12]
        entry_price := none } = 100 := by
  constructor
  · exact rsi_C6.1 (mkMeanReversion "x" 3 30 70) 5 (by simp [mkMeanReversion])
  · rw [rsi_C6.2 _ (by norm_num) (by norm_num)]
    norm_num [lastSlice, diffs]

end Strategy

namespace Backtest

/-- Length of the continued running maximum. -/
lemma runMaxFrom_length (m : ℚ) : ∀ xs : List ℚ,
    (runMaxFrom m xs).length = xs.length
  | [] => rfl
  | x :: t => by
    simp only [runMaxFrom, List.length_cons, runMaxFrom_length (max m x) t]

/-- Length of the expanding maximum. -/
lemma runningMax_length : ∀ xs : List ℚ, (runningMax xs).length = xs.length
  | [] => rfl
  | x :: t => by
    simp only [runningMax, List.length_cons, runMaxFrom_length x t]

/-- Length of the drawdown series. -/
lemma drawdownSeries_length (xs : List ℚ) :
    (drawdownSeries xs).length = xs.length := by
  unfold drawdownSeries
  rw [List.length_zipWith, runningMax_length, min_self]

/-- Element i of the continued running maximum is the fold of max over the
first i + 1 inputs, seeded with the carried peak. -/
lemma runMaxFrom_getD : ∀ (xs : List ℚ) (m : ℚ) (i : ℕ), i < xs.length →
    (runMaxFrom m xs).getD i 0 = (xs.take (i + 1)).foldl max m := by
  intro xs
  induction xs with
  | nil => intro m i h; simp at h
  | cons x t ih =>
    intro m i h
    cases i with
    | zero => rfl
    | succ j =>
      have hj : j < t.length := by simpa using h
      simpa only [runMaxFrom, List.getD_cons_succ, List.take_succ_cons,
        List.foldl_cons] using ih (max m x) j hj

/-- Element i of the expanding maximum is the running maximum the spec words
describe. -/
lemma runningMax_getD (xs : List ℚ) (i : ℕ) (h : i < xs.length) :
    (runningMax xs).getD i 0 = running_max_upto xs i := by
  cases xs with
  | nil => simp at h
  | cons x t =>
    cases i with
    | zero => rfl
    | succ j =>
      have hj : j < t.length := by simpa using h
      show (runMaxFrom x t).getD j 0 = running_max_upto (x :: t) (j + 1)
      rw [runMaxFrom_getD t x j hj]
      unfold running_max_upto
      rw [List.take_succ_cons]

/-- Pointwise description of zipWith through getD, inside the bounds. -/
lemma zipWith_getD (f : ℚ → ℚ → ℚ) : ∀ (as bs : List ℚ) (i : ℕ),
    i < as.length → i < bs.length →
    (List.zipWith f as bs).getD i 0 = f (as.getD i 0) (bs.getD i 0) := by
  intro as
  induction as with
  | nil => intro bs i h1 _; simp at h1
  | cons a at2 ih =>
    intro bs i h1 h2
    cases bs with
    | nil => simp at h2
    | cons b bt =>
      cases i with
      | zero => rfl
      | succ j => exact ih bt j (by simpa using h1) (by simpa using h2)

/-- Element i of the drawdown series is the drawdown formula of the spec. -/
lemma drawdownSeries_getD (xs : List ℚ) (i : ℕ) (h : i < xs.length) :
    (drawdownSeries xs).getD i 0 = drawdown_at xs i := by
  unfold drawdownSeries drawdown_at
  rw [zipWith_getD _ xs (runningMax xs) i h (by rw [runningMax_length]; exact h),
    runningMax_getD xs i h]

/-- Indexed elements inside the bounds are members. -/
lemma getD_mem (l : List ℚ) (i : ℕ) (h : i < l.length) : l.getD i 0 ∈ l :=
  List.getD_eq_getElem l 0 h ▸ List.getElem_mem h

/-- A min fold never exceeds its seed. -/
lemma foldl_min_le_init : ∀ (l : List ℚ) (a : ℚ), l.foldl min a ≤ a := by
  intro l
  induction l with
  | nil => intro a; exact le_refl a
  | cons x t ih => intro a; exact le_trans (ih (min a x)) (min_le_left a x)

/-- A min fold never exceeds a member of the list. -/
lemma foldl_min_le_mem : ∀ (l : List ℚ) (a x : ℚ), x ∈ l → l.foldl min a ≤ x := by
  intro l
  induction l with
  | nil => intro a x hx; simp at hx
  | cons y t ih =>
    intro a x hx
    rcases List.mem_cons.mp hx with rfl | hxt
    · exact le_trans (foldl_min_le_init t (min a x)) (min_le_right a x)
    · exact ih (min a y) x hxt

/-- A min fold returns its seed or a member of the list. -/
lemma foldl_min_mem : ∀ (l : List ℚ) (a : ℚ),
    l.foldl min a = a ∨ l.foldl min a ∈ l := by
  intro l
  induction l with
  | nil => intro a; exact Or.inl rfl
  | cons x t ih =>
    intro a
    rcases ih (min a x) with h | h
    · rcases min_choice a x with hm | hm
      · exact Or.inl (by rw [List.foldl_cons, h, hm])
      · exact Or.inr (by rw [List.foldl_cons, h, hm]; exact List.mem_cons_self x t)
    · exact Or.inr (List.mem_cons_of_mem x h)

/-- The drawdown series of a non-empty equity list starts at zero. -/
lemma drawdownSeries_cons (x : ℚ) (t : List ℚ) :
    drawdownSeries (x :: t) =
      0 :: List.zipWith (fun v m => (v - m) / m) t (runMaxFrom x t) := by
  unfold drawdownSeries runningMax
  rw [List.zipWith_cons_cons, sub_self, zero_div]

/-- Evaluation of max_drawdown on a non-empty list. -/
lemma max_drawdown_cons (x : ℚ) (t : List ℚ) :
    max_drawdown (x :: t) =
      (List.zipWith (fun v m => (v - m) / m) t (runMaxFrom x t)).foldl min 0 := by
  unfold max_drawdown
  rw [drawdownSeries_cons]

/-- On a non-decreasing tail the running maximum is the tail itself. -/
lemma runMaxFrom_of_chain : ∀ (t : List ℚ) (m : ℚ),
    List.Chain (· ≤ ·) m t → runMaxFrom m t = t := by
  intro t
  induction t with
  | nil => intro m _; rfl
  | cons y t2 ih =>
    intro m hc
    rcases List.chain_cons.mp hc with ⟨hmy, hchain⟩
    unfold runMaxFrom
    rw [max_eq_right hmy, ih y hchain]

/-- Zipping the drawdown formula of a list with itself gives zeros. -/
lemma zipWith_self_zero : ∀ l : List ℚ,
    List.zipWith (fun v m => (v - m) / m) l l =
      List.map (fun _ => (0 : ℚ)) l := by
  intro l
  induction l with
  | nil => rfl
  | cons x t ih =>
    rw [List.map_cons, List.zipWith_cons_cons, sub_self, zero_div, ih]

/-- A min fold of zeros from seed zero is zero. -/
lemma foldl_min_zeros : ∀ l : List ℚ,
    (List.map (fun _ => (0 : ℚ)) l).foldl min 0 = 0 := by
  intro l
  induction l with
  | nil => rfl
  | cons x t ih => rw [List.map_cons, List.foldl_cons, min_self, ih]

/-- C7: on a non-empty positive equity series the computed max_drawdown is the
minimum over all indices of the drawdown formula of the spec (it bounds every
index from below and is attained at one), it is never positive, and it is
exactly zero when the equity series never decreases. -/
theorem max_drawdown_C7 (equity : List ℚ) (hne : equity ≠ [])
    (hpos : ∀ x ∈ equity, 0 < x) :
    (∀ i, i < equity.length → max_drawdown equity ≤ drawdown_at equity i) ∧
    (∃ i, i < equity.length ∧ max_drawdown equity = drawdown_at equity i) ∧
    max_drawdown equity ≤ 0 ∧
    (List.Chain' (· ≤ ·) equity → max_drawdown equity = 0) := by
  match equity, hne with
  | x :: t, _ =>
    refine ⟨?_, ?_, ?_, ?_⟩
    · intro i hi
      rw [← drawdownSeries_getD _ i hi]
      have hmem : (drawdownSeries (x :: t)).getD i 0 ∈ drawdownSeries (x :: t) :=
        getD_mem _ i (by rw [drawdownSeries_length]; exact hi)
      rw [drawdownSeries_cons] at hmem ⊢
      rcases List.mem_cons.mp hmem with heq | hmemt
      · rw [heq]
        unfold max_drawdown
        rw [drawdownSeries_cons]
        exact foldl_min_le_init _ 0
      · unfold max_drawdown
        rw [drawdownSeries_cons]
        exact foldl_min_le_mem _ 0 _ hmemt
    · have hmem : max_drawdown (x :: t) ∈ drawdownSeries (x :: t) := by
        rw [max_drawdown_cons, drawdownSeries_cons]
        rcases foldl_min_mem
            (List.zipWith (fun v m => (v - m) / m) t (runMaxFrom x t)) 0 with h | h
        · rw [h]; exact List.mem_cons_self _ _
        · exact List.mem_cons_of_mem _ h
      rcases List.mem_iff_getElem.mp hmem with ⟨i, hilen, hival⟩
      have hi : i < (x :: t).length := by
        rw [← drawdownSeries_length]; exact hilen
      refine ⟨i, hi, ?_⟩
      rw [← drawdownSeries_getD _ i hi, List.getD_eq_getElem _ 0 hilen, hival]
    · rw [max_drawdown_cons]
      exact foldl_min_le_init _ 0
    · intro hchain
      have hc : List.Chain (· ≤ ·) x t := hchain
      rw [max_drawdown_cons, runMaxFrom_of_chain t x hc, zipWith_self_zero,
        foldl_min_zeros]

/-- Witness for C7 on the concrete equity series 10, 12, 9, 15: the drawdown
is bounded by zero and by the index-2 value of the spec formula. -/
theorem max_drawdown_C7_witness :
    max_drawdown [10, 12, 9, 15] ≤ 0 ∧
    max_drawdown [10, 12, 9, 15] ≤ drawdown_at [10, 12, 9, 15] 2 :=
  ⟨(max_drawdown_C7 [10, 12, 9, 15] (by simp) (by norm_num)).2.2.1,
   (max_drawdown_C7 [10, 12, 9, 15] (by simp) (by norm_num)).1 2 (by norm_num)⟩

end Backtest
